import Mathlib

/-!
Shallow embedding of `scripts/generate_policy_doc.py`.

The script scans schema files for `CREATE POLICY` statements
(`POLICY_PATTERN`), checks each extracted policy name against the
concatenated migration text with a dynamically built pattern
(`create\s+policy\s+"?<escaped name>"?`, case-insensitive), and renders a
markdown coverage report.

Texts are modelled as `List Char`.  The file system is modelled by the
lists of (filename, contents) pairs handed to the pipeline: the schema
directory as the sorted `*.sql` listing, the migrations directory as an
`Option` (with `none` for an absent directory, mirroring
`MIGRATIONS_DIR.exists()`).

Character classes `\w` and `\s` and `re.IGNORECASE` folding are modelled
on the ASCII range (Python's Unicode extensions of these classes are not
modelled; the script's inputs are SQL sources).
-/

namespace PolicyDoc

/-- ASCII lower casing, modelling `re.IGNORECASE` folding. -/
def lowerChar (c : Char) : Char :=
  if 'A' ≤ c ∧ c ≤ 'Z' then Char.ofNat (c.toNat + 32) else c

/-- Lower casing of a whole text. -/
def lowerStr (cs : List Char) : List Char := cs.map lowerChar

/-- Python regex class `\s` (ASCII range). -/
def isSpace (c : Char) : Bool :=
  c = ' ' || c = '\t' || c = '\n' || c = '\r' || c = '\x0b' || c = '\x0c'

/-- Python regex class `\w` (ASCII range). -/
def isWordChar (c : Char) : Bool :=
  ('a' ≤ c && c ≤ 'z') || ('A' ≤ c && c ≤ 'Z') || ('0' ≤ c && c ≤ '9') || c = '_'

/-- Character class `[\w-]`: a bare (unquoted) policy-name character. -/
def isNameBare (c : Char) : Bool := isWordChar c || c = '-'

/-- Character class `[\w\."]`: a table-capture character. -/
def isTableChar (c : Char) : Bool := isWordChar c || c = '.' || c = '"'

def createL : List Char := "create".toList
def policyL : List Char := "policy".toList
def onL : List Char := "on".toList

/-- Case-insensitive literal match at the head of the input; on success
returns the remaining input. -/
def matchLitCI : List Char → List Char → Option (List Char)
  | [], cs => some cs
  | _ :: _, [] => none
  | l :: ls, c :: cs => if lowerChar c = lowerChar l then matchLitCI ls cs else none

/-- Greedy `X+` for a character class: the maximal non-empty run together
with the rest of the input. -/
def takePlus (p : Char → Bool) (cs : List Char) : Option (List Char × List Char) :=
  if cs.takeWhile p = [] then none else some (cs.takeWhile p, cs.dropWhile p)

/-- The alternation `(?:"([^"]+)"|([\w-]+))` of `POLICY_PATTERN`.  The
quoted branch takes precedence; at a position starting with `"` the bare
branch can never apply (`"` is not in `[\w-]`), so there is no
backtracking between the branches. -/
def matchNameField : List Char → Option (List Char × List Char)
  | [] => none
  | c :: rest =>
    if c = '"' then
      if rest.takeWhile (fun d => d != '"') = [] then none
      else if rest.dropWhile (fun d => d != '"') = [] then none
      else some (rest.takeWhile (fun d => d != '"'),
                 (rest.dropWhile (fun d => d != '"')).tail)
    else takePlus isNameBare (c :: rest)

/-- One attempted match of `POLICY_PATTERN`
(`create\s+policy\s+(?:"([^"]+)"|([\w-]+))\s+on\s+([\w\."]+)`) at the
current position.  Returns the captures (name, table) and the input
remaining after the match.  Every greedy sub-expression of this pattern
is followed by a character that cannot belong to its class, so Python's
backtracking semantics coincide with the maximal-run reading used here. -/
def matchPolicyAt (cs : List Char) : Option ((List Char × List Char) × List Char) := do
  let cs1 ← matchLitCI createL cs
  let s1 ← takePlus isSpace cs1
  let cs3 ← matchLitCI policyL s1.2
  let s2 ← takePlus isSpace cs3
  let nf ← matchNameField s2.2
  let s3 ← takePlus isSpace nf.2
  let cs7 ← matchLitCI onL s3.2
  let s4 ← takePlus isSpace cs7
  let tb ← takePlus isTableChar s4.2
  pure ((nf.1, tb.1), tb.2)

/-- `POLICY_PATTERN.finditer`: scan left to right, resuming after each
match, advancing one character past failing positions.  `fuel` bounds the
recursion; `findPolicies` passes the input length, which always suffices
because a successful match consumes at least one character. -/
def findPoliciesF : Nat → List Char → List (List Char × List Char)
  | 0, _ => []
  | _ + 1, [] => []
  | fuel + 1, c :: cs =>
    match matchPolicyAt (c :: cs) with
    | some (nt, rest) => nt :: findPoliciesF fuel rest
    | none => findPoliciesF fuel cs

/-- All `POLICY_PATTERN` matches of a text, in order. -/
def findPolicies (cs : List Char) : List (List Char × List Char) :=
  findPoliciesF cs.length cs

/-- The optional quote and the literal name of the dynamic pattern
(`"?<escaped name>"?`).  `re.escape` makes the name fully literal, and
the trailing `"?` can always match the empty string, so only the leading
optional quote needs both backtracking branches. -/
def matchOptQuoteName (name : List Char) (cs : List Char) : Bool :=
  match cs with
  | [] => (matchLitCI name []).isSome
  | c :: rest =>
    if c = '"' then (matchLitCI name rest).isSome || (matchLitCI name (c :: rest)).isSome
    else (matchLitCI name (c :: rest)).isSome

/-- `\s+"?<escaped name>"?`: one or more whitespace characters followed by
the optional quote and the literal name.  Tries every non-empty
whitespace run, mirroring the regex engine's backtracking (a shorter run
matters when the name itself starts with whitespace). -/
def matchWsOptQuoteName (name : List Char) : List Char → Bool
  | [] => false
  | c :: cs => isSpace c && (matchOptQuoteName name cs || matchWsOptQuoteName name cs)

/-- One attempted match of the dynamic pattern
`create\s+policy\s+"?<escaped name>"?` at the current position. -/
def matchNamePatternAt (name : List Char) (cs : List Char) : Bool :=
  match matchLitCI createL cs with
  | none => false
  | some cs1 =>
    match takePlus isSpace cs1 with
    | none => false
    | some s1 =>
      match matchLitCI policyL s1.2 with
      | none => false
      | some cs3 => matchWsOptQuoteName name cs3

/-- `name_pattern.search(migration_text)`: does the dynamic pattern match
at any position of the text? -/
def searchNamePattern (name : List Char) : List Char → Bool
  | [] => false
  | c :: cs => matchNamePatternAt name (c :: cs) || searchNamePattern name cs

/-- `_read_migrations`: `none` models an absent migrations directory
(the function then returns the empty string); `some texts` models the
contents of the directory's `*.sql` files, joined by a newline. -/
def readMigrations : Option (List (List Char)) → List Char
  | none => []
  | some texts => List.intercalate ['\n'] texts

/-- A row of a per-file section: (policy name, table, in_migrations). -/
abbrev PolicyRow := List Char × List Char × Bool

/-- An entry of the missing list: (policy name, table, schema filename). -/
abbrev MissingEntry := List Char × List Char × String

/-- The three accumulators of `_collect_policy_rows`. -/
structure CollectResult where
  sections : List (String × List PolicyRow)
  unique : Finset (List Char × List Char)
  missing : List MissingEntry

/-- The body of the `for path in sorted(SCHEMA_DIR.glob("*.sql"))` loop of
`_collect_policy_rows`, for one schema file (filename, text). -/
def processFile (migrationText : List Char) (st : CollectResult)
    (file : String × List Char) : CollectResult :=
  let found := findPolicies file.2
  let rows := found.map (fun m => (m.1, m.2, searchNamePattern m.1 migrationText))
  { sections := st.sections ++ [(file.1, rows)]
    unique := st.unique ∪ found.toFinset
    missing := st.missing ++
      (rows.filter (fun r => !r.2.2)).map (fun r => (r.1, r.2.1, file.1)) }

/-- `_collect_policy_rows`: fold the per-file loop over the sorted schema
file listing, starting from empty accumulators. -/
def collectPolicyRows (migrationText : List Char)
    (files : List (String × List Char)) : CollectResult :=
  files.foldl (processFile migrationText) ⟨[], ∅, []⟩

/-- The status glyph of a rendered row. -/
def statusGlyph (flag : Bool) : String := if flag then "✅" else "❌"

/-- `_render_table`: header lines plus one line per row. -/
def renderTable (rows : List PolicyRow) : List String :=
  ["| Policy | Table | In migrations? |\n", "| --- | --- | --- |\n"] ++
  rows.map (fun r =>
    "| `" ++ String.mk r.1 ++ "` | `" ++ String.mk r.2.1 ++ "` | " ++
      statusGlyph r.2.2 ++ " |\n")

/-- The summary block of `generate_policy_report` (title, summary lines,
and the missing-coverage table or the no-gaps callout): everything the
code appends to `lines` before the per-file sections loop. -/
def summaryLines (result : CollectResult) : List String :=
  ["# DB Dump Analysis – Policies\n", "## Summary\n\n",
   "- Unique policy declarations under `database/schema`: **" ++
     toString result.unique.card ++
     "** across seven module files plus the `000_baseline.sql` snapshot.\n"] ++
  (if result.missing.isEmpty then
     ["- Every policy definition is present in `supabase/migrations/`.\n"]
   else
     ["- Missing policy definitions in migrations: **" ++
        toString result.missing.length ++ "** (detailed below).\n"]) ++
  ["- Supabase-managed policies (profiles, storage, auth) appear both in the baseline dump and in their module-specific files; duplication is expected.\n\n"] ++
  (if result.missing.isEmpty then
     ["> No gaps detected: migrations recreate all row level security policies from the schema dump.\n\n"]
   else
     ["### Missing policy coverage\n\n", "| Policy | Table | Declared in |\n",
      "| --- | --- | --- |\n"] ++
     result.missing.map (fun m =>
       "| `" ++ String.mk m.1 ++ "` | `" ++ String.mk m.2.1 ++ "` | `" ++
         m.2.2 ++ "` |\n") ++
     ["\n"])

/-- One iteration of the sections loop: the subsection heading, the
rendered table, and a blank line. -/
def sectionLines (s : String × List PolicyRow) : List String :=
  ["### `" ++ s.1 ++ "`\n"] ++ renderTable s.2 ++ ["\n"]

/-- The `lines` list built by `generate_policy_report` before the final
write, as a function of the migration directory contents and the sorted
schema file listing. -/
def reportLines (migrationFiles : Option (List (List Char)))
    (schemaFiles : List (String × List Char)) : List String :=
  summaryLines (collectPolicyRows (readMigrations migrationFiles) schemaFiles) ++
  (collectPolicyRows (readMigrations migrationFiles) schemaFiles).sections.flatMap
    sectionLines

/-- The full document text written by `generate_policy_report`
(`"".join(lines)`). -/
def reportText (migrationFiles : Option (List (List Char)))
    (schemaFiles : List (String × List Char)) : String :=
  String.join (reportLines migrationFiles schemaFiles)

/-- One run of the script as a transition on the output file's contents:
`output_path.write_text(...)` replaces the previous contents wholesale. -/
def runScript (migrationFiles : Option (List (List Char)))
    (schemaFiles : List (String × List Char)) (_previousOutput : String) : String :=
  reportText migrationFiles schemaFiles

/-! ### Basic lemmas about the matching primitives -/

theorem matchLitCI_sound :
    ∀ (lit cs rest : List Char), matchLitCI lit cs = some rest →
      ∃ pre, cs = pre ++ rest ∧ lowerStr pre = lowerStr lit := by
  intro lit
  induction lit with
  | nil =>
    intro cs rest h
    simp only [matchLitCI, Option.some.injEq] at h
    exact ⟨[], by simp [h], rfl⟩
  | cons l ls ih =>
    intro cs rest h
    cases cs with
    | nil => simp [matchLitCI] at h
    | cons c cs2 =>
      simp only [matchLitCI] at h
      split at h
      · rename_i heq
        obtain ⟨pre, hpre, hlow⟩ := ih cs2 rest h
        refine ⟨c :: pre, by simp [hpre], ?_⟩
        simp only [lowerStr, List.map_cons] at hlow ⊢
        rw [heq, hlow]
      · exact absurd h (by simp)

theorem matchLitCI_complete :
    ∀ (lit pre rest : List Char), lowerStr pre = lowerStr lit →
      matchLitCI lit (pre ++ rest) = some rest := by
  intro lit
  induction lit with
  | nil =>
    intro pre rest h
    have hpre : pre = [] := by
      cases pre with
      | nil => rfl
      | cons a as => simp [lowerStr] at h
    subst hpre
    simp [matchLitCI]
  | cons l ls ih =>
    intro pre rest h
    cases pre with
    | nil => simp [lowerStr] at h
    | cons a as =>
      simp only [lowerStr, List.map_cons, List.cons.injEq] at h
      have hrec := ih as rest h.2
      simp [matchLitCI, h.1, hrec]

theorem matchLitCI_congr :
    ∀ (n1 n2 cs : List Char), lowerStr n1 = lowerStr n2 →
      matchLitCI n1 cs = matchLitCI n2 cs := by
  intro n1
  induction n1 with
  | nil =>
    intro n2 cs h
    cases n2 with
    | nil => rfl
    | cons b bs => simp [lowerStr] at h
  | cons a as ih =>
    intro n2 cs h
    cases n2 with
    | nil => simp [lowerStr] at h
    | cons b bs =>
      simp only [lowerStr, List.map_cons, List.cons.injEq] at h
      cases cs with
      | nil => rfl
      | cons c cs2 =>
        simp only [matchLitCI, h.1, ih bs cs2 h.2]

theorem takePlus_sound {p : Char → Bool} {cs run rest : List Char}
    (h : takePlus p cs = some (run, rest)) :
    cs = run ++ rest ∧ run ≠ [] ∧ ∀ c ∈ run, p c = true := by
  unfold takePlus at h
  split at h
  · exact absurd h (by simp)
  · rename_i hne
    simp only [Option.some.injEq, Prod.mk.injEq] at h
    obtain ⟨h1, h2⟩ := h
    subst h1
    subst h2
    exact ⟨(List.takeWhile_append_dropWhile p cs).symm, hne,
      fun c hc => List.mem_takeWhile_imp hc⟩

theorem dropWhile_cons_false {p : Char → Bool} :
    ∀ (l : List Char) (x : Char) (xs : List Char),
      l.dropWhile p = x :: xs → p x = false := by
  intro l
  induction l with
  | nil => intro x xs h; simp [List.dropWhile] at h
  | cons a as ih =>
    intro x xs h
    by_cases hpa : p a
    · rw [List.dropWhile_cons_of_pos hpa] at h
      exact ih x xs h
    · rw [List.dropWhile_cons_of_neg hpa] at h
      obtain ⟨h1, _⟩ := List.cons.inj h
      subst h1
      simpa using hpa

theorem takePlus_complete {p : Char → Bool} {run rest : List Char}
    (hne : run ≠ []) (hall : ∀ c ∈ run, p c = true)
    (hstop : ∀ r rs, rest = r :: rs → p r = false) :
    takePlus p (run ++ rest) = some (run, rest) := by
  have hrt : rest.takeWhile p = [] := by
    cases rest with
    | nil => rfl
    | cons r rs => rw [List.takeWhile_cons_of_neg (by simp [hstop r rs rfl])]
  have hrd : rest.dropWhile p = rest := by
    cases rest with
    | nil => rfl
    | cons r rs => rw [List.dropWhile_cons_of_neg (by simp [hstop r rs rfl])]
  have ht : (run ++ rest).takeWhile p = run := by
    rw [List.takeWhile_append_of_pos (by intro a ha; exact hall a ha), hrt,
      List.append_nil]
  have hd : (run ++ rest).dropWhile p = rest := by
    rw [List.dropWhile_append_of_pos (by intro a ha; exact hall a ha), hrd]
  unfold takePlus
  rw [ht, hd]
  simp [hne]

theorem matchNameField_sound {cs n rest : List Char}
    (h : matchNameField cs = some (n, rest)) :
    n ≠ [] ∧ ((cs = '"' :: (n ++ '"' :: rest) ∧ ∀ c ∈ n, c ≠ '"') ∨
              (cs = n ++ rest ∧ ∀ c ∈ n, isNameBare c = true)) := by
  cases cs with
  | nil => simp [matchNameField] at h
  | cons c rest0 =>
    by_cases hc : c = '"'
    · subst hc
      rw [matchNameField, if_pos rfl] at h
      by_cases hemp : List.takeWhile (fun d => d != '"') rest0 = []
      · rw [if_pos hemp] at h
        exact absurd h (by simp)
      · rw [if_neg hemp] at h
        by_cases hemp2 : List.dropWhile (fun d => d != '"') rest0 = []
        · rw [if_pos hemp2] at h
          exact absurd h (by simp)
        · rw [if_neg hemp2] at h
          simp only [Option.some.injEq, Prod.mk.injEq] at h
          obtain ⟨h1, h2⟩ := h
          subst h1
          obtain ⟨q, rest2, hd⟩ : ∃ q rest2,
              List.dropWhile (fun d => d != '"') rest0 = q :: rest2 := by
            cases hdw : List.dropWhile (fun d => d != '"') rest0 with
            | nil => exact absurd hdw hemp2
            | cons q rest2 => exact ⟨q, rest2, rfl⟩
          have hq : q = '"' := by
            have hfalse := dropWhile_cons_false rest0 q rest2 hd
            simpa using hfalse
          subst hq
          rw [hd] at h2
          simp only [List.tail_cons] at h2
          subst h2
          have hsplit : rest0 = List.takeWhile (fun d => d != '"') rest0 ++
              '"' :: rest2 := by
            conv_lhs =>
              rw [← List.takeWhile_append_dropWhile (fun d => d != '"') rest0]
            rw [hd]
          refine ⟨hemp, Or.inl ⟨?_, ?_⟩⟩
          · conv_lhs => rw [hsplit]
          intro x hx
          have hmem := List.mem_takeWhile_imp hx
          simpa using hmem
    · rw [matchNameField, if_neg hc] at h
      obtain ⟨heq, hne, hall⟩ := takePlus_sound h
      exact ⟨hne, Or.inr ⟨heq, hall⟩⟩

/-! ### What a `POLICY_PATTERN` match means inside a text -/

/-- Every character of the run is regex whitespace. -/
def allSpace (l : List Char) : Prop := ∀ c ∈ l, isSpace c = true

/-- The text contains, at some position, a full `POLICY_PATTERN` match
whose name capture is `n` and whose table capture is `t`: the
case-insensitive keyword phrase, whitespace runs, the name field (quoted
or bare), the `on` keyword, and the table run appear verbatim in the
text, with `t` a verbatim (un-normalised) slice of the text. -/
def IsPolicyDecl (text n t : List Char) : Prop :=
  ∃ pre kwC ws1 kwP ws2 nf ws3 kwO ws4 post,
    text = pre ++ kwC ++ ws1 ++ kwP ++ ws2 ++ nf ++ ws3 ++ kwO ++ ws4 ++ t ++ post ∧
    lowerStr kwC = lowerStr createL ∧ ws1 ≠ [] ∧ allSpace ws1 ∧
    lowerStr kwP = lowerStr policyL ∧ ws2 ≠ [] ∧ allSpace ws2 ∧
    ((nf = '"' :: (n ++ ['"']) ∧ ∀ c ∈ n, c ≠ '"') ∨
      (nf = n ∧ ∀ c ∈ n, isNameBare c = true)) ∧
    n ≠ [] ∧ ws3 ≠ [] ∧ allSpace ws3 ∧
    lowerStr kwO = lowerStr onL ∧ ws4 ≠ [] ∧ allSpace ws4 ∧
    t ≠ [] ∧ (∀ c ∈ t, isTableChar c = true)

theorem matchPolicyAt_sound {cs n t rest : List Char}
    (h : matchPolicyAt cs = some ((n, t), rest)) :
    ∃ kwC ws1 kwP ws2 nf ws3 kwO ws4,
      cs = kwC ++ ws1 ++ kwP ++ ws2 ++ nf ++ ws3 ++ kwO ++ ws4 ++ t ++ rest ∧
      lowerStr kwC = lowerStr createL ∧ ws1 ≠ [] ∧ allSpace ws1 ∧
      lowerStr kwP = lowerStr policyL ∧ ws2 ≠ [] ∧ allSpace ws2 ∧
      ((nf = '"' :: (n ++ ['"']) ∧ ∀ c ∈ n, c ≠ '"') ∨
        (nf = n ∧ ∀ c ∈ n, isNameBare c = true)) ∧
      n ≠ [] ∧ ws3 ≠ [] ∧ allSpace ws3 ∧
      lowerStr kwO = lowerStr onL ∧ ws4 ≠ [] ∧ allSpace ws4 ∧
      t ≠ [] ∧ (∀ c ∈ t, isTableChar c = true) := by
  simp only [matchPolicyAt, Option.bind_eq_bind, Option.bind_eq_some,
    Option.pure_def, Option.some.injEq, Prod.mk.injEq] at h
  obtain ⟨cs1, h1, s1, h2, cs3, h3, s2, h4, nf, h5, s3, h6, cs7, h7, s4, h8, tb,
    h9, h10⟩ := h
  obtain ⟨⟨hn, ht⟩, hrest⟩ := h10
  subst hn
  subst ht
  subst hrest
  obtain ⟨kwC, hcs, hkwC⟩ := matchLitCI_sound _ _ _ h1
  obtain ⟨hcs1, hws1ne, hws1⟩ := takePlus_sound h2
  obtain ⟨kwP, hcs2, hkwP⟩ := matchLitCI_sound _ _ _ h3
  obtain ⟨hcs3, hws2ne, hws2⟩ := takePlus_sound h4
  have h5e : matchNameField s2.2 = some (nf.1, nf.2) := by simpa using h5
  obtain ⟨hnne, hnf⟩ := matchNameField_sound h5e
  obtain ⟨hcs5, hws3ne, hws3⟩ := takePlus_sound h6
  obtain ⟨kwO, hcs6, hkwO⟩ := matchLitCI_sound _ _ _ h7
  obtain ⟨hcs7, hws4ne, hws4⟩ := takePlus_sound h8
  obtain ⟨hcs8, htne, htall⟩ := takePlus_sound h9
  rcases hnf with ⟨heq, hq⟩ | ⟨heq, hb⟩
  · refine ⟨kwC, s1.1, kwP, s2.1, '"' :: (nf.1 ++ ['"']), s3.1, kwO, s4.1, ?_,
      hkwC, hws1ne, hws1, hkwP, hws2ne, hws2, Or.inl ⟨rfl, hq⟩, hnne, hws3ne,
      hws3, hkwO, hws4ne, hws4, htne, htall⟩
    rw [hcs, hcs1, hcs2, hcs3, heq, hcs5, hcs6, hcs7, hcs8]
    simp [List.append_assoc]
  · refine ⟨kwC, s1.1, kwP, s2.1, nf.1, s3.1, kwO, s4.1, ?_,
      hkwC, hws1ne, hws1, hkwP, hws2ne, hws2, Or.inr ⟨rfl, hb⟩, hnne, hws3ne,
      hws3, hkwO, hws4ne, hws4, htne, htall⟩
    rw [hcs, hcs1, hcs2, hcs3, heq, hcs5, hcs6, hcs7, hcs8]
    simp [List.append_assoc]

/-- A declaration found in a suffix is a declaration of the whole text. -/
theorem IsPolicyDecl_prepend {l text n t : List Char}
    (h : IsPolicyDecl text n t) : IsPolicyDecl (l ++ text) n t := by
  obtain ⟨pre, kwC, ws1, kwP, ws2, nf, ws3, kwO, ws4, post, heq, hrest⟩ := h
  exact ⟨l ++ pre, kwC, ws1, kwP, ws2, nf, ws3, kwO, ws4, post,
    by rw [heq]; simp [List.append_assoc], hrest⟩

theorem findPoliciesF_sound :
    ∀ (fuel : Nat) (cs : List Char) (p : List Char × List Char),
      p ∈ findPoliciesF fuel cs → IsPolicyDecl cs p.1 p.2 := by
  intro fuel
  induction fuel with
  | zero => intro cs p hp; simp [findPoliciesF] at hp
  | succ fuel ih =>
    intro cs p hp
    cases cs with
    | nil => simp [findPoliciesF] at hp
    | cons c cs2 =>
      rw [findPoliciesF] at hp
      cases hm : matchPolicyAt (c :: cs2) with
      | none =>
        rw [hm] at hp
        have hdecl := ih cs2 p hp
        have : IsPolicyDecl ([c] ++ cs2) p.1 p.2 := IsPolicyDecl_prepend hdecl
        simpa using this
      | some r =>
        rw [hm] at hp
        obtain ⟨⟨n, t⟩, rest⟩ := r
        simp only [List.mem_cons] at hp
        rcases hp with hp | hp
        · subst hp
          obtain ⟨kwC, ws1, kwP, ws2, nf, ws3, kwO, ws4, heq, hrest⟩ :=
            matchPolicyAt_sound hm
          exact ⟨[], kwC, ws1, kwP, ws2, nf, ws3, kwO, ws4, rest,
            by simpa using heq, hrest⟩
        · have hdecl := ih rest p hp
          obtain ⟨kwC, ws1, kwP, ws2, nf, ws3, kwO, ws4, heq, _⟩ :=
            matchPolicyAt_sound hm
          have hpre : c :: cs2 =
              (kwC ++ ws1 ++ kwP ++ ws2 ++ nf ++ ws3 ++ kwO ++ ws4 ++ t) ++
                rest := by
            rw [heq]
          rw [hpre]
          exact IsPolicyDecl_prepend hdecl

/-- Soundness of the extractor: every extracted (name, table) comes from
an actual `POLICY_PATTERN` match inside the text. -/
theorem findPolicies_sound {cs : List Char} {p : List Char × List Char}
    (hp : p ∈ findPolicies cs) : IsPolicyDecl cs p.1 p.2 :=
  findPoliciesF_sound cs.length cs p hp

/-! ### What a dynamic name-pattern match means inside a text -/

/-- The dynamic pattern `create\s+policy\s+"?<escaped name>"?` matches at
the start of `cs`.  The trailing `"?` always matches the empty string, so
it imposes no constraint. -/
def NameStemAt (name cs : List Char) : Prop :=
  ∃ kwC ws1 kwP ws2 q n2 post,
    cs = kwC ++ ws1 ++ kwP ++ ws2 ++ q ++ n2 ++ post ∧
    lowerStr kwC = lowerStr createL ∧ ws1 ≠ [] ∧ allSpace ws1 ∧
    lowerStr kwP = lowerStr policyL ∧ ws2 ≠ [] ∧ allSpace ws2 ∧
    (q = [] ∨ q = ['"']) ∧ lowerStr n2 = lowerStr name

/-- The dynamic pattern matches somewhere in `text`: after the keyword
phrase and an optional opening quote, the name itself occurs literally
(up to ASCII case) — regex metacharacters in the name have no effect. -/
def NameOccurs (name text : List Char) : Prop :=
  ∃ pre tl, text = pre ++ tl ∧ NameStemAt name tl

theorem matchLitCI_isSome_sound {name cs2 : List Char}
    (hs : (matchLitCI name cs2).isSome = true) :
    ∃ n2 post, cs2 = n2 ++ post ∧ lowerStr n2 = lowerStr name := by
  rw [Option.isSome_iff_exists] at hs
  obtain ⟨rest, hr⟩ := hs
  obtain ⟨pre, hpre, hlow⟩ := matchLitCI_sound _ _ _ hr
  exact ⟨pre, rest, hpre, hlow⟩

theorem matchOptQuoteName_sound {name cs : List Char}
    (h : matchOptQuoteName name cs = true) :
    ∃ q n2 post, cs = q ++ n2 ++ post ∧ (q = [] ∨ q = ['"']) ∧
      lowerStr n2 = lowerStr name := by
  cases cs with
  | nil =>
    rw [matchOptQuoteName] at h
    obtain ⟨n2, post, hpre, hlow⟩ := matchLitCI_isSome_sound h
    exact ⟨[], n2, post, by simpa using hpre, Or.inl rfl, hlow⟩
  | cons c rest0 =>
    rw [matchOptQuoteName] at h
    by_cases hc : c = '"'
    · rw [if_pos hc] at h
      subst hc
      cases hfirst : (matchLitCI name rest0).isSome with
      | true =>
        obtain ⟨n2, post, hpre, hlow⟩ := matchLitCI_isSome_sound hfirst
        exact ⟨['"'], n2, post, by simp [hpre], Or.inr rfl, hlow⟩
      | false =>
        rw [hfirst, Bool.false_or] at h
        obtain ⟨n2, post, hpre, hlow⟩ := matchLitCI_isSome_sound h
        exact ⟨[], n2, post, by simpa using hpre, Or.inl rfl, hlow⟩
    · rw [if_neg hc] at h
      obtain ⟨n2, post, hpre, hlow⟩ := matchLitCI_isSome_sound h
      exact ⟨[], n2, post, by simpa using hpre, Or.inl rfl, hlow⟩

theorem matchOptQuoteName_of_lit {name cs : List Char}
    (h : (matchLitCI name cs).isSome = true) :
    matchOptQuoteName name cs = true := by
  cases cs with
  | nil => rw [matchOptQuoteName]; exact h
  | cons c rest0 =>
    rw [matchOptQuoteName]
    by_cases hc : c = '"'
    · rw [if_pos hc]
      rw [h]
      simp
    · rw [if_neg hc]
      exact h

theorem matchOptQuoteName_quote_of_lit {name cs : List Char}
    (h : (matchLitCI name cs).isSome = true) :
    matchOptQuoteName name ('"' :: cs) = true := by
  simp [matchOptQuoteName, h]

theorem matchOptQuoteName_complete {name q n2 post : List Char}
    (hq : q = [] ∨ q = ['"']) (hn : lowerStr n2 = lowerStr name) :
    matchOptQuoteName name (q ++ n2 ++ post) = true := by
  have hlit : (matchLitCI name (n2 ++ post)).isSome = true := by
    rw [matchLitCI_complete _ _ _ hn]; rfl
  rcases hq with hq | hq
  · subst hq
    simpa using matchOptQuoteName_of_lit hlit
  · subst hq
    simpa using matchOptQuoteName_quote_of_lit hlit

theorem matchWsOptQuoteName_sound {name : List Char} :
    ∀ cs, matchWsOptQuoteName name cs = true →
      ∃ ws q n2 post, cs = ws ++ q ++ n2 ++ post ∧ ws ≠ [] ∧ allSpace ws ∧
        (q = [] ∨ q = ['"']) ∧ lowerStr n2 = lowerStr name := by
  intro cs
  induction cs with
  | nil => intro h; simp [matchWsOptQuoteName] at h
  | cons c cs2 ih =>
    intro h
    rw [matchWsOptQuoteName] at h
    simp only [Bool.and_eq_true, Bool.or_eq_true] at h
    obtain ⟨hsp, hrest⟩ := h
    rcases hrest with hmo | hmw
    · obtain ⟨q, n2, post, hcs, hq, hn⟩ := matchOptQuoteName_sound hmo
      refine ⟨[c], q, n2, post, by simp [hcs], by simp, ?_, hq, hn⟩
      intro x hx
      simp only [List.mem_singleton] at hx
      subst hx
      exact hsp
    · obtain ⟨ws, q, n2, post, hcs, hwne, hws, hq, hn⟩ := ih hmw
      refine ⟨c :: ws, q, n2, post, by simp [hcs], by simp, ?_, hq, hn⟩
      intro x hx
      rcases List.mem_cons.mp hx with hx | hx
      · subst hx; exact hsp
      · exact hws x hx

theorem matchWsOptQuoteName_complete {name : List Char} :
    ∀ (ws q n2 post : List Char), ws ≠ [] → allSpace ws →
      (q = [] ∨ q = ['"']) → lowerStr n2 = lowerStr name →
      matchWsOptQuoteName name (ws ++ q ++ n2 ++ post) = true := by
  intro ws
  induction ws with
  | nil => intro q n2 post hne; exact absurd rfl hne
  | cons w ws2 ih =>
    intro q n2 post _ hall hq hn
    have hw : isSpace w = true := hall w (List.mem_cons_self w ws2)
    simp only [List.cons_append, matchWsOptQuoteName, Bool.and_eq_true,
      Bool.or_eq_true]
    refine ⟨hw, ?_⟩
    cases ws2 with
    | nil => exact Or.inl (by simpa using matchOptQuoteName_complete hq hn)
    | cons w2 ws3 =>
      refine Or.inr ?_
      have := ih q n2 post (by simp) (fun x hx => hall x (List.mem_cons_of_mem w hx)) hq hn
      simpa using this

theorem lowerChar_of_isSpace {c : Char} (h : isSpace c = true) :
    lowerChar c = c := by
  rw [isSpace] at h
  simp only [Bool.or_eq_true, decide_eq_true_eq] at h
  rcases h with ((((h | h) | h) | h) | h) | h <;> subst h <;> decide

theorem matchNamePatternAt_sound {name cs : List Char}
    (h : matchNamePatternAt name cs = true) : NameStemAt name cs := by
  rw [matchNamePatternAt] at h
  cases h1 : matchLitCI createL cs with
  | none => rw [h1] at h; simp at h
  | some cs1 =>
    rw [h1] at h
    simp only at h
    cases h2 : takePlus isSpace cs1 with
    | none => rw [h2] at h; simp at h
    | some s1 =>
      rw [h2] at h
      simp only at h
      cases h3 : matchLitCI policyL s1.2 with
      | none => rw [h3] at h; simp at h
      | some cs3 =>
        rw [h3] at h
        simp only at h
        obtain ⟨ws2, q, n2, post, hcs3, hw2ne, hw2, hq, hn⟩ :=
          matchWsOptQuoteName_sound cs3 h
        obtain ⟨kwC, hcs, hkwC⟩ := matchLitCI_sound _ _ _ h1
        obtain ⟨hcs1, hw1ne, hw1⟩ := takePlus_sound h2
        obtain ⟨kwP, hcs2, hkwP⟩ := matchLitCI_sound _ _ _ h3
        refine ⟨kwC, s1.1, kwP, ws2, q, n2, post, ?_, hkwC, hw1ne, hw1, hkwP,
          hw2ne, hw2, hq, hn⟩
        rw [hcs, hcs1, hcs2, hcs3]
        simp [List.append_assoc]

theorem matchNamePatternAt_complete {name cs : List Char}
    (h : NameStemAt name cs) : matchNamePatternAt name cs = true := by
  obtain ⟨kwC, ws1, kwP, ws2, q, n2, post, hcs, hkwC, hw1ne, hw1, hkwP, hw2ne,
    hw2, hq, hn⟩ := h
  obtain ⟨k, kws, hkw⟩ : ∃ k kws, kwP = k :: kws := by
    cases kwP with
    | nil =>
      exfalso
      rw [show lowerStr policyL = 'p' :: ('o' :: ('l' :: ('i' :: ('c' ::
        ('y' :: []))))) from by decide] at hkwP
      simp [lowerStr] at hkwP
    | cons k kws => exact ⟨k, kws, rfl⟩
  have hk : lowerChar k = 'p' := by
    rw [hkw, show lowerStr policyL = 'p' :: ('o' :: ('l' :: ('i' :: ('c' ::
      ('y' :: []))))) from by decide] at hkwP
    simp only [lowerStr, List.map_cons, List.cons.injEq] at hkwP
    exact hkwP.1
  have hknsp : isSpace k = false := by
    cases hsk : isSpace k with
    | false => rfl
    | true =>
      exfalso
      have hfix := lowerChar_of_isSpace hsk
      rw [hfix] at hk
      subst hk
      simp [isSpace] at hsk
  have hcs2 : cs = kwC ++ (ws1 ++ (kwP ++ (ws2 ++ q ++ n2 ++ post))) := by
    rw [hcs]
    simp [List.append_assoc]
  have h1 : matchLitCI createL cs =
      some (ws1 ++ (kwP ++ (ws2 ++ q ++ n2 ++ post))) := by
    rw [hcs2]
    exact matchLitCI_complete _ _ _ hkwC
  have h2 : takePlus isSpace (ws1 ++ (kwP ++ (ws2 ++ q ++ n2 ++ post))) =
      some (ws1, kwP ++ (ws2 ++ q ++ n2 ++ post)) := by
    refine takePlus_complete hw1ne hw1 ?_
    intro r rs hr
    rw [hkw] at hr
    simp only [List.cons_append, List.cons.injEq] at hr
    rw [← hr.1]
    exact hknsp
  have h3 : matchLitCI policyL (kwP ++ (ws2 ++ q ++ n2 ++ post)) =
      some (ws2 ++ q ++ n2 ++ post) := matchLitCI_complete _ _ _ hkwP
  have h4 : matchWsOptQuoteName name (ws2 ++ q ++ n2 ++ post) = true :=
    matchWsOptQuoteName_complete ws2 q n2 post hw2ne hw2 hq hn
  rw [matchNamePatternAt, h1]
  simp only
  rw [h2]
  simp only
  rw [h3]
  exact h4

theorem matchNamePatternAt_nil {name : List Char} :
    matchNamePatternAt name [] = false := rfl

theorem searchNamePattern_of_stem {name : List Char} :
    ∀ (pre tl : List Char), matchNamePatternAt name tl = true →
      searchNamePattern name (pre ++ tl) = true := by
  intro pre
  induction pre with
  | nil =>
    intro tl h
    cases tl with
    | nil => rw [matchNamePatternAt_nil] at h; exact absurd h (by simp)
    | cons c cs2 =>
      simp only [List.nil_append, searchNamePattern, Bool.or_eq_true]
      exact Or.inl h
  | cons a pre2 ih =>
    intro tl h
    simp only [List.cons_append, searchNamePattern, Bool.or_eq_true]
    exact Or.inr (ih tl h)

theorem searchNamePattern_sound {name : List Char} :
    ∀ text, searchNamePattern name text = true → NameOccurs name text := by
  intro text
  induction text with
  | nil => intro h; simp [searchNamePattern] at h
  | cons c cs2 ih =>
    intro h
    rw [searchNamePattern] at h
    simp only [Bool.or_eq_true] at h
    rcases h with h | h
    · exact ⟨[], c :: cs2, by simp, matchNamePatternAt_sound h⟩
    · obtain ⟨pre, tl, heq, hstem⟩ := ih h
      exact ⟨c :: pre, tl, by simp [heq], hstem⟩

theorem searchNamePattern_complete {name text : List Char}
    (h : NameOccurs name text) : searchNamePattern name text = true := by
  obtain ⟨pre, tl, heq, hstem⟩ := h
  rw [heq]
  exact searchNamePattern_of_stem pre tl (matchNamePatternAt_complete hstem)

/-! ### The dynamic pattern only depends on the name up to ASCII case -/

theorem matchOptQuoteName_congr {n1 n2 : List Char}
    (h : lowerStr n1 = lowerStr n2) (cs : List Char) :
    matchOptQuoteName n1 cs = matchOptQuoteName n2 cs := by
  cases cs with
  | nil => rw [matchOptQuoteName, matchOptQuoteName, matchLitCI_congr n1 n2 [] h]
  | cons c rest0 =>
    rw [matchOptQuoteName, matchOptQuoteName]
    by_cases hc : c = '"'
    · rw [if_pos hc, if_pos hc, matchLitCI_congr n1 n2 rest0 h,
        matchLitCI_congr n1 n2 (c :: rest0) h]
    · rw [if_neg hc, if_neg hc, matchLitCI_congr n1 n2 (c :: rest0) h]

theorem matchWsOptQuoteName_congr {n1 n2 : List Char}
    (h : lowerStr n1 = lowerStr n2) :
    ∀ cs, matchWsOptQuoteName n1 cs = matchWsOptQuoteName n2 cs := by
  intro cs
  induction cs with
  | nil => rfl
  | cons c cs2 ih =>
    rw [matchWsOptQuoteName, matchWsOptQuoteName,
      matchOptQuoteName_congr h cs2, ih]

theorem matchNamePatternAt_congr {n1 n2 : List Char}
    (h : lowerStr n1 = lowerStr n2) (cs : List Char) :
    matchNamePatternAt n1 cs = matchNamePatternAt n2 cs := by
  rw [matchNamePatternAt, matchNamePatternAt]
  cases matchLitCI createL cs with
  | none => rfl
  | some cs1 =>
    simp only
    cases takePlus isSpace cs1 with
    | none => rfl
    | some s1 =>
      simp only
      cases matchLitCI policyL s1.2 with
      | none => rfl
      | some cs3 =>
        simp only
        exact matchWsOptQuoteName_congr h cs3

theorem searchNamePattern_congr {n1 n2 : List Char}
    (h : lowerStr n1 = lowerStr n2) :
    ∀ text, searchNamePattern n1 text = searchNamePattern n2 text := by
  intro text
  induction text with
  | nil => rfl
  | cons c cs2 ih =>
    rw [searchNamePattern, searchNamePattern,
      matchNamePatternAt_congr h (c :: cs2), ih]

/-! ### Structure of the collected result -/

theorem collect_foldl (migrationText : List Char) :
    ∀ (files : List (String × List Char)) (st : CollectResult),
      files.foldl (processFile migrationText) st =
        { sections := st.sections ++ files.map (fun f => (f.1,
            (findPolicies f.2).map (fun m =>
              (m.1, m.2, searchNamePattern m.1 migrationText)))),
          unique := st.unique ∪
            (files.flatMap (fun f => findPolicies f.2)).toFinset,
          missing := st.missing ++ files.flatMap (fun f =>
            (((findPolicies f.2).map (fun m =>
                (m.1, m.2, searchNamePattern m.1 migrationText))).filter
              (fun r => !r.2.2)).map (fun r => (r.1, r.2.1, f.1))) } := by
  intro files
  induction files with
  | nil =>
    intro st
    simp [List.foldl]
  | cons f fs ih =>
    intro st
    rw [List.foldl_cons, ih]
    simp [processFile, List.flatMap_cons, List.toFinset_append,
      Finset.union_assoc, List.append_assoc]

theorem collectPolicyRows_eq (migrationText : List Char)
    (files : List (String × List Char)) :
    collectPolicyRows migrationText files =
      { sections := files.map (fun f => (f.1, (findPolicies f.2).map (fun m =>
          (m.1, m.2, searchNamePattern m.1 migrationText)))),
        unique := (files.flatMap (fun f => findPolicies f.2)).toFinset,
        missing := files.flatMap (fun f =>
          (((findPolicies f.2).map (fun m =>
              (m.1, m.2, searchNamePattern m.1 migrationText))).filter
            (fun r => !r.2.2)).map (fun r => (r.1, r.2.1, f.1))) } := by
  rw [collectPolicyRows, collect_foldl]
  simp

/-- Every row of every section carries the dynamic-pattern search result
as its flag, and stems from a match in a listed schema file. -/
theorem row_found_eq {migrationText : List Char}
    {files : List (String × List Char)} {s : String × List PolicyRow}
    {r : PolicyRow}
    (hs : s ∈ (collectPolicyRows migrationText files).sections)
    (hr : r ∈ s.2) :
    r.2.2 = searchNamePattern r.1 migrationText ∧
    ∃ f ∈ files, (r.1, r.2.1) ∈ findPolicies f.2 := by
  rw [collectPolicyRows_eq] at hs
  simp only [List.mem_map] at hs
  obtain ⟨f, hf, hfs⟩ := hs
  subst hfs
  simp only [List.mem_map] at hr
  obtain ⟨m, hm, hmr⟩ := hr
  subst hmr
  exact ⟨rfl, f, hf, hm⟩

/-! ### The claims -/

/-- Claim C1 (corrected).  The found flag of every extracted row equals
the result of searching the migration text with the dynamically built
pattern, and a policy name that is declared in the migration text
(case-insensitively, quoted or bare) always yields a true flag; but the
dynamic pattern only tests a prefix of the declared name, so "name not
declared implies flag false" fails (see the counterexample). -/
theorem C1_found_flag_characterization (migrationText : List Char)
    (files : List (String × List Char)) :
    ∀ s ∈ (collectPolicyRows migrationText files).sections, ∀ r ∈ s.2,
      r.2.2 = searchNamePattern r.1 migrationText ∧
      ((∃ q ∈ findPolicies migrationText, lowerStr q.1 = lowerStr r.1) →
        r.2.2 = true) := by
  intro s hs r hr
  obtain ⟨hflag, _⟩ := row_found_eq hs hr
  refine ⟨hflag, ?_⟩
  rintro ⟨q, hq, hlow⟩
  rw [hflag]
  apply searchNamePattern_complete
  obtain ⟨pre, kwC, ws1, kwP, ws2, nf, ws3, kwO, ws4, post, heq, hkwC, hw1ne,
    hw1, hkwP, hw2ne, hw2, hnf, hnne, hw3ne, hw3, hkwO, hw4ne, hw4, htne,
    htall⟩ := findPolicies_sound hq
  rcases hnf with ⟨hnfq, _⟩ | ⟨hnfb, _⟩
  · refine ⟨pre, kwC ++ ws1 ++ kwP ++ ws2 ++ ['"'] ++ q.1 ++
      (['"'] ++ ws3 ++ kwO ++ ws4 ++ q.2 ++ post), ?_,
      kwC, ws1, kwP, ws2, ['"'], q.1,
      ['"'] ++ ws3 ++ kwO ++ ws4 ++ q.2 ++ post, rfl,
      hkwC, hw1ne, hw1, hkwP, hw2ne, hw2, Or.inr rfl, hlow⟩
    rw [heq, hnfq]
    simp [List.append_assoc]
  · refine ⟨pre, kwC ++ ws1 ++ kwP ++ ws2 ++ q.1 ++
      (ws3 ++ kwO ++ ws4 ++ q.2 ++ post), ?_,
      kwC, ws1, kwP, ws2, [], q.1, ws3 ++ kwO ++ ws4 ++ q.2 ++ post,
      by simp, hkwC, hw1ne, hw1, hkwP, hw2ne, hw2, Or.inl rfl, hlow⟩
    rw [heq, hnfb]
    simp [List.append_assoc]

/-- Witness for C1 at a concrete input: the name `read_own`, declared in
the migration text, gets flag true, and the flag equals the dynamic
search result. -/
theorem C1_found_flag_characterization_witness :
    (((("read_own").toList, ("t2").toList, true) : PolicyRow)).2.2 =
      searchNamePattern (("read_own").toList)
        (("create policy \"read_own\" on t").toList) ∧
    ((∃ q ∈ findPolicies (("create policy \"read_own\" on t").toList),
        lowerStr q.1 =
          lowerStr ((("read_own").toList, ("t2").toList, true) : PolicyRow).1) →
      ((("read_own").toList, ("t2").toList, true) : PolicyRow).2.2 = true) :=
  C1_found_flag_characterization (("create policy \"read_own\" on t").toList)
    [(("a.sql"), ("create policy read_own on t2").toList)]
    (("a.sql"), [(("read_own").toList, ("t2").toList, true)]) (by decide)
    ((("read_own").toList, ("t2").toList, true)) (by decide)

/-- Counterexample for C1 as stated: with migration text declaring only
`read_own`, the schema-declared policy `read` receives flag true even
though no migration declaration has the name `read` — the dynamic
pattern accepts any declared name extending the searched one. -/
theorem C1_counterexample_prefix_false_positive :
    ¬ (∀ s ∈ (collectPolicyRows (("create policy \"read_own\" on t").toList)
          [(("a.sql"), ("create policy read on t2").toList)]).sections,
        ∀ r ∈ s.2,
          (r.2.2 = true ↔
            ∃ q ∈ findPolicies (("create policy \"read_own\" on t").toList),
              lowerStr q.1 = lowerStr r.1)) := by
  decide

/-- Claim C2 (confirmed).  The reported unique count equals the number of
distinct (name, table) pairs across all declarations of all schema
files; a pair repeated across files is counted once. -/
theorem C2_unique_count_distinct_pairs (migrationText : List Char)
    (files : List (String × List Char)) :
    (collectPolicyRows migrationText files).unique.card =
      (files.flatMap (fun f => findPolicies f.2)).toFinset.card := by
  rw [collectPolicyRows_eq]

/-- Claim C3 (corrected).  The missing list holds one (name, table,
filename) entry for every not-found match occurrence, in file order then
text order — so a declaration repeated inside one file produces one
entry per occurrence, not one entry per declaring file; found
declarations contribute no entry. -/
theorem C3_missing_per_occurrence (migrationText : List Char)
    (files : List (String × List Char)) :
    (collectPolicyRows migrationText files).missing =
      files.flatMap (fun f =>
        ((findPolicies f.2).filter (fun m =>
            !(searchNamePattern m.1 migrationText))).map (fun m =>
          (m.1, m.2, f.1))) := by
  rw [collectPolicyRows_eq]
  simp only [List.filter_map, List.map_map, Function.comp_def]

/-- Counterexample for C3 as stated: one schema file declaring the same
policy twice (and an empty migration corpus) produces two identical
missing entries for that single declaring file, not exactly one. -/
theorem C3_counterexample_duplicate_occurrences :
    (collectPolicyRows [] [(("a.sql"),
        ("create policy p on t; create policy p on t").toList)]).missing =
      [(("p").toList, ("t").toList, "a.sql"),
       (("p").toList, ("t").toList, "a.sql")] ∧
    ¬ ((collectPolicyRows [] [(("a.sql"),
          ("create policy p on t; create policy p on t").toList)]).missing.count
        ((("p").toList, ("t").toList, "a.sql")) = 1) := by
  decide

/-- Claim C4 (confirmed).  An absent migrations directory yields the
empty corpus (not an error); every extracted row then carries flag
false, and every declaration occurrence appears in the missing list. -/
theorem C4_absent_migrations_all_not_found
    (files : List (String × List Char)) :
    readMigrations none = [] ∧
    (collectPolicyRows (readMigrations none) files).sections =
      files.map (fun f => (f.1, (findPolicies f.2).map (fun m =>
        (m.1, m.2, false)))) ∧
    (collectPolicyRows (readMigrations none) files).missing =
      files.flatMap (fun f => (findPolicies f.2).map (fun m =>
        (m.1, m.2, f.1))) := by
  refine ⟨rfl, ?_, ?_⟩
  · rw [collectPolicyRows_eq]
    simp [searchNamePattern]
  · rw [collectPolicyRows_eq]
    simp [searchNamePattern, List.filter_map, Function.comp_def, List.map_map,
      List.filter_true]

/-- Claim C5 (confirmed).  A run writes a document that is a function of
the schema and migration file contents alone, and the write is a full
overwrite: the previous output contents never influence the result, so
re-running on unchanged inputs reproduces the same bytes. -/
theorem C5_idempotent_overwrite (migrationFiles : Option (List (List Char)))
    (schemaFiles : List (String × List Char)) (out1 out2 : String) :
    runScript migrationFiles schemaFiles out1 =
      runScript migrationFiles schemaFiles out2 ∧
    runScript migrationFiles schemaFiles
        (runScript migrationFiles schemaFiles out1) =
      runScript migrationFiles schemaFiles out1 :=
  ⟨rfl, rfl⟩

/-- Claim C6 (confirmed).  When the schema files contain no policy
declaration at all, the unique count is 0, the missing list is empty, and
the rendered lines consist of the fixed summary with the no-gaps callout
(no missing-coverage table) followed by a header-only table per file. -/
theorem C6_zero_declarations_report (migrationFiles : Option (List (List Char)))
    (files : List (String × List Char))
    (h : ∀ f ∈ files, findPolicies f.2 = []) :
    (collectPolicyRows (readMigrations migrationFiles) files).unique.card = 0 ∧
    (collectPolicyRows (readMigrations migrationFiles) files).missing = [] ∧
    reportLines migrationFiles files =
      ["# DB Dump Analysis – Policies\n", "## Summary\n\n",
       "- Unique policy declarations under `database/schema`: **" ++
         toString 0 ++
         "** across seven module files plus the `000_baseline.sql` snapshot.\n",
       "- Every policy definition is present in `supabase/migrations/`.\n",
       "- Supabase-managed policies (profiles, storage, auth) appear both in the baseline dump and in their module-specific files; duplication is expected.\n\n",
       "> No gaps detected: migrations recreate all row level security policies from the schema dump.\n\n"] ++
      files.flatMap (fun f =>
        ["### `" ++ f.1 ++ "`\n"] ++ renderTable [] ++ ["\n"]) := by
  have hres := collectPolicyRows_eq (readMigrations migrationFiles) files
  have hflat : files.flatMap (fun f => findPolicies f.2) = [] :=
    List.flatMap_eq_nil_iff.mpr h
  have hcard :
      (collectPolicyRows (readMigrations migrationFiles) files).unique.card =
        0 := by
    rw [hres]
    simp [hflat]
  have hmiss :
      (collectPolicyRows (readMigrations migrationFiles) files).missing =
        [] := by
    rw [hres]
    simp only
    rw [List.flatMap_eq_nil_iff]
    intro f hf
    rw [h f hf]
    rfl
  have hsect :
      (collectPolicyRows (readMigrations migrationFiles) files).sections =
        files.map (fun f => (f.1, ([] : List PolicyRow))) := by
    rw [hres]
    simp only
    apply List.map_congr_left
    intro f hf
    rw [h f hf]
    rfl
  refine ⟨hcard, hmiss, ?_⟩
  rw [reportLines, hsect]
  simp [summaryLines, sectionLines, hmiss, hcard, List.flatMap_map]

/-- Witness for C6 at a concrete input: one schema file without any
declaration. -/
theorem C6_zero_declarations_report_witness :
    (collectPolicyRows (readMigrations none)
      [(("empty.sql"), ("select 1;").toList)]).unique.card = 0 ∧
    (collectPolicyRows (readMigrations none)
      [(("empty.sql"), ("select 1;").toList)]).missing = [] ∧
    reportLines none [(("empty.sql"), ("select 1;").toList)] =
      ["# DB Dump Analysis – Policies\n", "## Summary\n\n",
       "- Unique policy declarations under `database/schema`: **" ++
         toString 0 ++
         "** across seven module files plus the `000_baseline.sql` snapshot.\n",
       "- Every policy definition is present in `supabase/migrations/`.\n",
       "- Supabase-managed policies (profiles, storage, auth) appear both in the baseline dump and in their module-specific files; duplication is expected.\n\n",
       "> No gaps detected: migrations recreate all row level security policies from the schema dump.\n\n"] ++
      [(("empty.sql"), ("select 1;").toList)].flatMap (fun f =>
        ["### `" ++ f.1 ++ "`\n"] ++ renderTable [] ++ ["\n"]) :=
  C6_zero_declarations_report none [(("empty.sql"), ("select 1;").toList)]
    (by decide)

/-- Claim C7 (confirmed).  Every extracted row stems from an actual
`POLICY_PATTERN` match: the recorded name is the non-empty capture
(contents of the quotes when the quoted branch applies, the bare
identifier otherwise) and the recorded table is the verbatim third
capture, embedded un-normalised in the source text. -/
theorem C7_extraction_sound (text : List Char) :
    ∀ p ∈ findPolicies text, IsPolicyDecl text p.1 p.2 :=
  fun _ hp => findPolicies_sound hp

/-- Witness for C7 at a concrete input with a quoted name containing a
space and a schema-qualified table. -/
theorem C7_extraction_sound_witness :
    IsPolicyDecl (("CREATE POLICY \" my p\" ON public.users").toList)
      ((" my p").toList) (("public.users").toList) :=
  C7_extraction_sound (("CREATE POLICY \" my p\" ON public.users").toList)
    (((" my p").toList, ("public.users").toList)) (by decide)

/-- Claim C8 (confirmed).  The found flag of a row depends only on its
policy name (up to ASCII case) and the migration text: any two rows of
the same run with case-insensitively equal names carry equal flags,
whatever their tables or declaring files. -/
theorem C8_found_flag_name_determined (migrationText : List Char)
    (files : List (String × List Char)) :
    ∀ s1 ∈ (collectPolicyRows migrationText files).sections, ∀ r1 ∈ s1.2,
      ∀ s2 ∈ (collectPolicyRows migrationText files).sections, ∀ r2 ∈ s2.2,
        lowerStr r1.1 = lowerStr r2.1 → r1.2.2 = r2.2.2 := by
  intro s1 hs1 r1 hr1 s2 hs2 r2 hr2 hlow
  obtain ⟨h1, _⟩ := row_found_eq hs1 hr1
  obtain ⟨h2, _⟩ := row_found_eq hs2 hr2
  rw [h1, h2, searchNamePattern_congr hlow migrationText]

/-- Witness for C8 at a concrete input: `Foo` and `FOO`, declared on
different tables in the same run, carry the same flag. -/
theorem C8_found_flag_name_determined_witness :
    ((("Foo").toList, ("t1").toList, false) : PolicyRow).2.2 =
      ((("FOO").toList, ("t2").toList, false) : PolicyRow).2.2 :=
  C8_found_flag_name_determined [] [(("a.sql"),
      ("create policy Foo on t1; create policy FOO on t2").toList)]
    (("a.sql"), [(("Foo").toList, ("t1").toList, false),
      (("FOO").toList, ("t2").toList, false)]) (by decide)
    ((("Foo").toList, ("t1").toList, false)) (by decide)
    (("a.sql"), [(("Foo").toList, ("t1").toList, false),
      (("FOO").toList, ("t2").toList, false)]) (by decide)
    ((("FOO").toList, ("t2").toList, false)) (by decide)
    (by decide)

/-- Claim C9 (confirmed).  Every schema file yields a section (the
section filenames are exactly the input filenames, in order), and a file
without declarations yields a section with an empty row list whose
rendering — the subsection heading followed by the header-only table —
appears in the report lines. -/
theorem C9_empty_file_section (migrationFiles : Option (List (List Char)))
    (files : List (String × List Char)) :
    (collectPolicyRows (readMigrations migrationFiles) files).sections.map
        (fun s => s.1) = files.map (fun f => f.1) ∧
    ∀ f ∈ files, findPolicies f.2 = [] →
      (f.1, ([] : List PolicyRow)) ∈
        (collectPolicyRows (readMigrations migrationFiles) files).sections ∧
      ∃ l1 l2, reportLines migrationFiles files =
        l1 ++ (["### `" ++ f.1 ++ "`\n"] ++ renderTable [] ++ ["\n"]) ++ l2 := by
  have hres := collectPolicyRows_eq (readMigrations migrationFiles) files
  constructor
  · rw [hres]
    simp [List.map_map, Function.comp_def]
  · intro f hf hemp
    have hmem : (f.1, ([] : List PolicyRow)) ∈
        (collectPolicyRows (readMigrations migrationFiles) files).sections := by
      rw [hres]
      simp only [List.mem_map]
      refine ⟨f, hf, ?_⟩
      rw [hemp]
      rfl
    refine ⟨hmem, ?_⟩
    obtain ⟨u, v, huv⟩ := List.append_of_mem hmem
    rw [reportLines, huv]
    refine ⟨summaryLines (collectPolicyRows (readMigrations migrationFiles)
        files) ++ u.flatMap sectionLines, v.flatMap sectionLines, ?_⟩
    simp [sectionLines, List.flatMap_append, List.append_assoc]

/-- Witness for C9 at a concrete input: the declaration-free file
`b.sql` still produces an (empty) section and its heading plus
header-only table appear in the rendered lines. -/
theorem C9_empty_file_section_witness :
    (("b.sql"), ([] : List PolicyRow)) ∈
      (collectPolicyRows (readMigrations none)
        [(("a.sql"), ("create policy p on t;").toList),
         (("b.sql"), ("nothing here").toList)]).sections ∧
    ∃ l1 l2, reportLines none
        [(("a.sql"), ("create policy p on t;").toList),
         (("b.sql"), ("nothing here").toList)] =
      l1 ++ (["### `" ++ ("b.sql") ++ "`\n"] ++ renderTable [] ++ ["\n"]) ++ l2 :=
  (C9_empty_file_section none
      [(("a.sql"), ("create policy p on t;").toList),
       (("b.sql"), ("nothing here").toList)]).2
    ((("b.sql"), ("nothing here").toList)) (by decide) (by decide)

/-- Claim C10 (confirmed).  For every policy name — metacharacters
included — the dynamically built migration-search is total and treats
the name as an exact literal string: it succeeds exactly when the
keyword phrase, whitespace, an optional quote and then the name itself,
character for character up to ASCII case, occur in the text. -/
theorem C10_dynamic_pattern_literal (name text : List Char) :
    searchNamePattern name text = true ↔ NameOccurs name text :=
  ⟨fun h => searchNamePattern_sound text h, searchNamePattern_complete⟩

end PolicyDoc
